import Mathlib

set_option maxHeartbeats 1000000

/-!
Verification of the azuki conversion core (`server/src/converter.rs`,
`server/src/dictionary.rs`, `server/src/handler.rs`).

Readings and candidates are modelled as `List Char` (the Rust code converts every
string to `Vec<char>` before indexing), the two hash tables of the dictionary as
association lists with unique keys, and the boundary-rebuild step — whose slice
`chars[start..end]` can go out of bounds — as an `Option`-returning function where
`none` is the panic.
-/

namespace Azuki

/-- Segment information for UI display, mirroring `Segment` in `converter.rs`. -/
structure Segment where
  reading : List Char
  start : Nat
  length : Nat
  candidates : List (List Char)
  deriving DecidableEq, Repr

instance : Inhabited Segment := ⟨⟨[], 0, 0, []⟩⟩

/-- Conversion result, mirroring `ConversionResult` in `converter.rs`. -/
structure ConversionResult where
  combined_candidates : List (List Char)
  segments : List Segment
  deriving DecidableEq, Repr

/-- Direction for segment boundary adjustment, mirroring `AdjustDirection`. -/
inductive AdjustDirection where
  | Shrink
  | Extend
  deriving DecidableEq, Repr

/-- First-match lookup in an association list; models `HashMap::get` for the
dictionary tables, whose keys are unique. -/
def assocLookup (m : List (List Char × List (List Char))) (k : List Char) :
    Option (List (List Char)) :=
  match m with
  | [] => none
  | (key, value) :: rest => if k = key then some value else assocLookup rest k

/-- SKK dictionary: okuri-nasi (inflection-free) and okuri-ari (inflected) tables,
mirroring `Dictionary` in `dictionary.rs`. -/
structure Dictionary where
  okuri_nasi : List (List Char × List (List Char))
  okuri_ari : List (List Char × List (List Char))
  deriving DecidableEq, Repr

/-- `Dictionary::lookup`: okuri-nasi only. -/
def Dictionary.lookup (d : Dictionary) (reading : List Char) :
    Option (List (List Char)) :=
  assocLookup d.okuri_nasi reading

/-- `Dictionary::lookup_with_fallback`: candidates from the okuri-nasi table with the
reading itself appended when absent; just the reading when there is no entry. -/
def Dictionary.lookup_with_fallback (d : Dictionary) (reading : List Char) :
    List (List Char) :=
  match d.lookup reading with
  | some candidates =>
      if reading ∈ candidates then candidates else candidates ++ [reading]
  | none => [reading]

/-- `hiragana_to_okuri_symbol` in `dictionary.rs`: fixed consonant-class table. -/
def hiragana_to_okuri_symbol (c : Char) : Option Char :=
  match c with
  | 'あ' | 'い' | 'う' | 'え' | 'お' => some c
  | 'か' | 'き' | 'く' | 'け' | 'こ' => some 'k'
  | 'さ' | 'し' | 'す' | 'せ' | 'そ' => some 's'
  | 'た' | 'ち' | 'つ' | 'て' | 'と' => some 't'
  | 'な' | 'に' | 'ぬ' | 'ね' | 'の' => some 'n'
  | 'は' | 'ひ' | 'ふ' | 'へ' | 'ほ' => some 'h'
  | 'ま' | 'み' | 'む' | 'め' | 'も' => some 'm'
  | 'や' | 'ゆ' | 'よ' => some 'y'
  | 'ら' | 'り' | 'る' | 'れ' | 'ろ' => some 'r'
  | 'わ' | 'を' | 'ん' => some 'w'
  | 'が' | 'ぎ' | 'ぐ' | 'げ' | 'ご' => some 'g'
  | 'ざ' | 'じ' | 'ず' | 'ぜ' | 'ぞ' => some 'z'
  | 'だ' | 'ぢ' | 'づ' | 'で' | 'ど' => some 'd'
  | 'ば' | 'び' | 'ぶ' | 'べ' | 'ぼ' => some 'b'
  | 'ぱ' | 'ぴ' | 'ぷ' | 'ぺ' | 'ぽ' => some 'p'
  | 'ぁ' | 'ぃ' | 'ぅ' | 'ぇ' | 'ぉ' => some c
  | 'ゃ' | 'ゅ' | 'ょ' => some 'y'
  | 'っ' => some 't'
  | _ => none

/-- `Dictionary::lookup_okuri_ari`: key is stem plus the okuri symbol of the
trailing character; no symbol means no lookup. -/
def Dictionary.lookup_okuri_ari (d : Dictionary) (stem : List Char)
    (okuri_char : Char) : Option (List (List Char)) :=
  match hiragana_to_okuri_symbol okuri_char with
  | none => none
  | some sym => assocLookup d.okuri_ari (stem ++ [sym])

/-- Append `x` unless already present; models `if !acc.contains(x) { acc.push(x) }`. -/
def pushIfAbsent (acc : List (List Char)) (x : List Char) : List (List Char) :=
  if x ∈ acc then acc else acc ++ [x]

/-- `Dictionary::lookup_combined`: okuri-nasi candidates first, then for readings of
two or more characters the okuri-ari stems completed with the trailing character
(skipping duplicates), finally the raw reading as fallback when non-empty and new. -/
def Dictionary.lookup_combined (d : Dictionary) (reading : List Char) :
    List (List Char) :=
  let base :=
    match d.lookup reading with
    | some candidates => candidates
    | none => []
  let withOkuri :=
    if 2 ≤ reading.length then
      match d.lookup_okuri_ari reading.dropLast (reading.getLastD ' ') with
      | some kanji_stems =>
          kanji_stems.foldl
            (fun acc st => pushIfAbsent acc (st ++ [reading.getLastD ' '])) base
      | none => base
    else base
  if reading ≠ [] ∧ reading ∉ withOkuri then withOkuri ++ [reading] else withOkuri

/-- Kana-kanji converter with optional dictionary, mirroring `Converter`. -/
structure Converter where
  dictionary : Option Dictionary

/-- The character slice `chars[pos..pos+len]` of `converter.rs`. -/
def subAt (chars : List Char) (pos len : Nat) : List Char :=
  (chars.drop pos).take len

/-- The inner loop of `segment_with_info`: try substrings starting at `pos` of the
given character count down to one character; the first okuri-nasi hit wins.
`tryEndsDown d chars pos n` tries lengths `n, n-1, …, 1`. -/
def tryEndsDown (d : Dictionary) (chars : List Char) (pos : Nat) :
    Nat → Option (Nat × List Char)
  | 0 => none
  | n + 1 =>
      if (d.lookup (subAt chars pos (n + 1))).isSome then
        some (n + 1, subAt chars pos (n + 1))
      else tryEndsDown d chars pos n

/-- The `while pos < chars.len()` loop of `segment_with_info`, with an explicit
bound `fuel` on the number of remaining iterations; the loop advances `pos` by at
least one character per iteration, so `chars.length - pos` iterations always
suffice. -/
def segmentLoopF (d : Dictionary) (chars : List Char) :
    Nat → Nat → List Segment
  | 0, _ => []
  | fuel + 1, pos =>
      if pos < chars.length then
        match tryEndsDown d chars pos (chars.length - pos) with
        | some (len, seg_reading) =>
            { reading := seg_reading, start := pos, length := len,
              candidates := d.lookup_with_fallback seg_reading } ::
              segmentLoopF d chars fuel (pos + len)
        | none =>
            { reading := subAt chars pos 1, start := pos, length := 1,
              candidates := [subAt chars pos 1] } ::
              segmentLoopF d chars fuel (pos + 1)
      else []

/-- The segmentation loop from position `pos`. -/
def segmentLoop (d : Dictionary) (chars : List Char) (pos : Nat) : List Segment :=
  segmentLoopF d chars (chars.length - pos) pos

/-- `Converter::segment_with_info`: no dictionary gives the whole reading as one
segment; otherwise greedy longest-match segmentation from position zero. -/
def Converter.segment_with_info (c : Converter) (reading : List Char) :
    List Segment :=
  match c.dictionary with
  | none =>
      [{ reading := reading, start := 0, length := reading.length,
         candidates := [reading] }]
  | some d => segmentLoop d reading 0

/-- `Converter::convert_with_segments`. -/
def Converter.convert_with_segments (c : Converter) (reading : List Char) :
    ConversionResult :=
  if reading = [] then { combined_candidates := [], segments := [] }
  else
    let segments := c.segment_with_info reading
    let combined := (segments.map fun s => s.candidates.headD s.reading).flatten
    let combined_candidates :=
      if combined ≠ reading then [combined, reading] else [combined]
    { combined_candidates := combined_candidates, segments := segments }

/-- `Converter::can_adjust`; only called with `index < segments.len()`. -/
def Converter.can_adjust (segments : List Segment) (index : Nat)
    (direction : AdjustDirection) : Bool :=
  if segments.length - 1 ≤ index then false
  else
    match direction with
    | .Shrink => decide (1 < (segments.getD index default).length)
    | .Extend => decide (1 < (segments.getD (index + 1) default).length)

/-- Loop body of `calculate_shrink_boundaries`: running position after each
segment, the target segment counted one character shorter and its successor one
character longer. -/
def shrinkBoundariesAux (index : Nat) :
    List Segment → Nat → Nat → List Nat
  | [], _, _ => []
  | seg :: rest, i, pos =>
      let step :=
        if i = index then seg.length - 1
        else if i = index + 1 then seg.length + 1
        else seg.length
      (pos + step) :: shrinkBoundariesAux index rest (i + 1) (pos + step)

/-- `Converter::calculate_shrink_boundaries`. -/
def Converter.calculate_shrink_boundaries (segments : List Segment)
    (index : Nat) : List Nat :=
  shrinkBoundariesAux index segments 0 0

/-- Loop body of `calculate_extend_boundaries`. -/
def extendBoundariesAux (index : Nat) :
    List Segment → Nat → Nat → List Nat
  | [], _, _ => []
  | seg :: rest, i, pos =>
      let step :=
        if i = index then seg.length + 1
        else if i = index + 1 then seg.length - 1
        else seg.length
      (pos + step) :: extendBoundariesAux index rest (i + 1) (pos + step)

/-- `Converter::calculate_extend_boundaries`. -/
def Converter.calculate_extend_boundaries (segments : List Segment)
    (index : Nat) : List Nat :=
  extendBoundariesAux index segments 0 0

/-- `Converter::rebuild_segments_from_boundaries`. The Rust code slices
`chars[start..end]` after only checking `start < chars.len()` and `start < end`;
a boundary past the end of `chars` makes that slice panic, modelled as `none`. -/
def rebuildAux (dict : Option Dictionary) (chars : List Char) :
    List Nat → Nat → Option (List Segment)
  | [], _ => some []
  | e :: rest, start =>
      if chars.length ≤ start ∨ e ≤ start then rebuildAux dict chars rest start
      else if chars.length < e then none
      else
        match rebuildAux dict chars rest e with
        | some segs =>
            some ({ reading := subAt chars start (e - start), start := start,
                    length := e - start,
                    candidates :=
                      match dict with
                      | some d => d.lookup_with_fallback (subAt chars start (e - start))
                      | none => [subAt chars start (e - start)] } :: segs)
        | none => none

/-- Entry point of the rebuild step. -/
def Converter.rebuild_segments_from_boundaries (c : Converter)
    (chars : List Char) (boundaries : List Nat) : Option (List Segment) :=
  rebuildAux c.dictionary chars boundaries 0

/-- `Converter::adjust_segment`: out-of-range index or failing legality check
returns the input unchanged; otherwise the moved boundary set is rebuilt. -/
def Converter.adjust_segment (c : Converter) (reading : List Char)
    (current_segments : List Segment) (segment_index : Nat)
    (direction : AdjustDirection) : Option (List Segment) :=
  if current_segments.length ≤ segment_index then some current_segments
  else if Converter.can_adjust current_segments segment_index direction then
    c.rebuild_segments_from_boundaries reading
      (match direction with
       | .Shrink => Converter.calculate_shrink_boundaries current_segments segment_index
       | .Extend => Converter.calculate_extend_boundaries current_segments segment_index)
  else some current_segments

/-- Candidate merge of `handler.rs` (`Request::Convert`): dictionary candidates are
appended to the neural ones, skipping entries already present. -/
def mergeCandidates (zenzai_cands : List (List Char))
    (dict_cands : List (List Char)) : List (List Char) :=
  dict_cands.foldl pushIfAbsent zenzai_cands

/-- Payload of `Response::ConvertResult` built by the handler. -/
structure ConvertReply where
  candidates : List (List Char)
  segments : List Segment
  deriving DecidableEq, Repr

/-- The `Request::Convert` arm of `Server::handle_request`: the optional neural
result (already ordered) is merged with the dictionary result; segments always
come from the dictionary converter. -/
def handleConvert (c : Converter) (zenzai_candidates : Option (List (List Char)))
    (reading : List Char) : ConvertReply :=
  let dict_result := c.convert_with_segments reading
  { candidates :=
      match zenzai_candidates with
      | some zenzai_cands => mergeCandidates zenzai_cands dict_result.combined_candidates
      | none => dict_result.combined_candidates,
    segments := dict_result.segments }

/-- Contiguity from position `pos`: each segment starts where the previous one
ended, carries the matching substring of `chars` as its reading, and the chain
ends exactly at the end of `chars`. -/
def SegChain (chars : List Char) : Nat → List Segment → Prop
  | pos, [] => pos = chars.length
  | pos, s :: rest =>
      s.start = pos ∧ s.reading = subAt chars pos s.length ∧
      SegChain chars (pos + s.length) rest

/-- A segment list partitions `chars`: contiguous from offset zero, readings are
the corresponding substrings, every segment non-empty. -/
def Partitions (chars : List Char) (segs : List Segment) : Prop :=
  SegChain chars 0 segs ∧ ∀ s ∈ segs, 1 ≤ s.length

/-- The invariant stated by the specification for segment lists: ordered by start
ascending, contiguous and non-overlapping (the chain), readings concatenating to
the full reading, lengths summing to its character count. -/
def SpecInvariant (chars : List Char) (segs : List Segment) : Prop :=
  List.Pairwise (fun a b => a.start < b.start) segs ∧
  SegChain chars 0 segs ∧
  (segs.map Segment.reading).flatten = chars ∧
  (segs.map Segment.length).sum = chars.length

/-- Boundary list generated by a list of span lengths starting at `pos`: the
running totals. -/
def boundsOf (pos : Nat) : List Nat → List Nat
  | [] => []
  | l :: rest => (pos + l) :: boundsOf (pos + l) rest

/-- Start offsets generated by a list of span lengths starting at `pos`. -/
def startsFrom (pos : Nat) : List Nat → List Nat
  | [] => []
  | l :: rest => pos :: startsFrom (pos + l) rest

/-- Adjusted span lengths for a shrink at `index`, the counter starting at `i`. -/
def shrinkLens (index : Nat) : Nat → List Segment → List Nat
  | _, [] => []
  | i, seg :: rest =>
      (if i = index then seg.length - 1
       else if i = index + 1 then seg.length + 1
       else seg.length) :: shrinkLens index (i + 1) rest

/-- Adjusted span lengths for an extend at `index`, the counter starting at `i`. -/
def extendLens (index : Nat) : Nat → List Segment → List Nat
  | _, [] => []
  | i, seg :: rest =>
      (if i = index then seg.length + 1
       else if i = index + 1 then seg.length - 1
       else seg.length) :: extendLens index (i + 1) rest

/-- One single-character segment per character, starting at offset `pos`: the
shape segmentation takes when no substring ever matches. -/
def singletonSegsFrom : List Char → Nat → List Segment
  | [], _ => []
  | ch :: rest, pos => ⟨[ch], pos, 1, [[ch]]⟩ :: singletonSegsFrom rest (pos + 1)

/-- Modelled from the spec, section 4.1: `lookupCombined` returns the
inflection-free match first, then for readings of length at least two the
inflected stems completed with the trailing character (skipping duplicates),
finally the raw reading as fallback if non-empty and not already present. Used to
check the code's `lookup_combined` against the specification text. -/
def lookupCombinedSpec (d : Dictionary) (reading : List Char) :
    List (List Char) :=
  let base := (d.lookup reading).getD []
  let fullForms :=
    if 2 ≤ reading.length then
      match d.lookup_okuri_ari reading.dropLast (reading.getLastD ' ') with
      | some kanji_stems => kanji_stems.map (fun st => st ++ [reading.getLastD ' '])
      | none => []
    else []
  let merged := fullForms.foldl pushIfAbsent base
  if reading ≠ [] ∧ reading ∉ merged then merged ++ [reading] else merged

theorem tryEndsDown_one_le {d : Dictionary} {chars : List Char} {pos n len : Nat}
    {s : List Char} (h : tryEndsDown d chars pos n = some (len, s)) : 1 ≤ len := by
  induction n with
  | zero => simp [tryEndsDown] at h
  | succ n ih =>
    rw [tryEndsDown] at h
    by_cases hc : (d.lookup (subAt chars pos (n + 1))).isSome = true
    · rw [if_pos hc] at h
      simp only [Option.some.injEq, Prod.mk.injEq] at h
      omega
    · rw [if_neg hc] at h
      exact ih h

theorem tryEndsDown_some {d : Dictionary} {chars : List Char} {pos : Nat} :
    ∀ {n len : Nat} {s : List Char}, tryEndsDown d chars pos n = some (len, s) →
      1 ≤ len ∧ len ≤ n ∧ s = subAt chars pos len ∧ (d.lookup s).isSome = true ∧
        ∀ l, len < l → l ≤ n → (d.lookup (subAt chars pos l)).isSome = false := by
  intro n
  induction n with
  | zero => intro len s h; simp [tryEndsDown] at h
  | succ n ih =>
    intro len s h
    rw [tryEndsDown] at h
    by_cases hc : (d.lookup (subAt chars pos (n + 1))).isSome = true
    · rw [if_pos hc] at h
      simp only [Option.some.injEq, Prod.mk.injEq] at h
      obtain ⟨hlen, hsub⟩ := h
      subst hlen
      subst hsub
      exact ⟨by omega, le_rfl, rfl, hc, fun l h1 h2 => absurd (by omega : l = l) (by omega)⟩
    · rw [if_neg hc] at h
      obtain ⟨h1, h2, h3, h4, h5⟩ := ih h
      refine ⟨h1, by omega, h3, h4, fun l hl1 hl2 => ?_⟩
      rcases Nat.lt_or_ge l (n + 1) with hl | hl
      · exact h5 l hl1 (by omega)
      · have : l = n + 1 := by omega
        subst this
        simpa using hc

theorem tryEndsDown_none {d : Dictionary} {chars : List Char} {pos : Nat} :
    ∀ {n : Nat}, tryEndsDown d chars pos n = none →
      ∀ l, 1 ≤ l → l ≤ n → (d.lookup (subAt chars pos l)).isSome = false := by
  intro n
  induction n with
  | zero => intro _ l h1 h2; exact absurd (Nat.le_trans h1 h2) (by omega)
  | succ n ih =>
    intro h l h1 h2
    rw [tryEndsDown] at h
    by_cases hc : (d.lookup (subAt chars pos (n + 1))).isSome = true
    · rw [if_pos hc] at h; exact absurd h (by simp)
    · rw [if_neg hc] at h
      rcases Nat.lt_or_ge l (n + 1) with hl | hl
      · exact ih h l h1 (by omega)
      · have : l = n + 1 := by omega
        subst this
        simpa using hc

theorem segmentLoopF_stop (d : Dictionary) (chars : List Char) {fuel pos : Nat}
    (hp : ¬ pos < chars.length) : segmentLoopF d chars fuel pos = [] := by
  cases fuel with
  | zero => rfl
  | succ fuel => rw [segmentLoopF, if_neg hp]

theorem segmentLoopF_congr (d : Dictionary) (chars : List Char) :
    ∀ f1 f2 pos, chars.length - pos ≤ f1 → chars.length - pos ≤ f2 →
      segmentLoopF d chars f1 pos = segmentLoopF d chars f2 pos := by
  intro f1
  induction f1 with
  | zero =>
    intro f2 pos h1 _
    have hp : ¬ pos < chars.length := by omega
    rw [segmentLoopF_stop d chars hp, segmentLoopF_stop d chars hp]
  | succ f1 ih =>
    intro f2 pos h1 h2
    by_cases hp : pos < chars.length
    · cases f2 with
      | zero => exact absurd h2 (by omega)
      | succ f2 =>
        rw [segmentLoopF, segmentLoopF, if_pos hp, if_pos hp]
        cases htry : tryEndsDown d chars pos (chars.length - pos) with
        | none =>
          have := ih f2 (pos + 1) (by omega) (by omega)
          simp [this]
        | some p =>
          obtain ⟨len, s⟩ := p
          have hlen : 1 ≤ len := tryEndsDown_one_le htry
          have := ih f2 (pos + len) (by omega) (by omega)
          simp [this]
    · rw [segmentLoopF_stop d chars hp, segmentLoopF_stop d chars hp]

theorem segmentLoopF_eq_segmentLoop (d : Dictionary) (chars : List Char)
    {fuel pos : Nat} (h : chars.length - pos ≤ fuel) :
    segmentLoopF d chars fuel pos = segmentLoop d chars pos :=
  segmentLoopF_congr d chars fuel (chars.length - pos) pos h le_rfl

theorem segmentLoop_eq (d : Dictionary) (chars : List Char) (pos : Nat) :
    segmentLoop d chars pos =
      if pos < chars.length then
        match tryEndsDown d chars pos (chars.length - pos) with
        | some (len, seg_reading) =>
            { reading := seg_reading, start := pos, length := len,
              candidates := d.lookup_with_fallback seg_reading } ::
              segmentLoop d chars (pos + len)
        | none =>
            { reading := subAt chars pos 1, start := pos, length := 1,
              candidates := [subAt chars pos 1] } :: segmentLoop d chars (pos + 1)
      else [] := by
  by_cases hp : pos < chars.length
  · rw [if_pos hp,
      ← @segmentLoopF_eq_segmentLoop d chars (chars.length - pos) pos
        (le_refl (chars.length - pos))]
    have hsplit : chars.length - pos = (chars.length - pos - 1) + 1 := by omega
    rw [hsplit, segmentLoopF, if_pos hp, ← hsplit]
    cases htry : tryEndsDown d chars pos (chars.length - pos) with
    | none =>
      have := @segmentLoopF_eq_segmentLoop d chars
        (chars.length - pos - 1) (pos + 1) (by omega)
      simp [this]
    | some p =>
      obtain ⟨len, s⟩ := p
      have hlen : 1 ≤ len := tryEndsDown_one_le htry
      have := @segmentLoopF_eq_segmentLoop d chars
        (chars.length - pos - 1) (pos + len) (by omega)
      simp [this]
  · rw [if_neg hp]
    exact segmentLoopF_stop d chars hp

theorem lookup_with_fallback_ne_nil (d : Dictionary) (r : List Char) :
    d.lookup_with_fallback r ≠ [] := by
  unfold Dictionary.lookup_with_fallback
  rcases hd : d.lookup r with _ | cs
  · simp
  · show (if r ∈ cs then cs else cs ++ [r]) ≠ []
    by_cases h : r ∈ cs
    · rw [if_pos h]
      exact List.ne_nil_of_mem h
    · rw [if_neg h]
      simp

theorem segmentLoop_chain (d : Dictionary) (chars : List Char) :
    ∀ fuel pos, chars.length - pos ≤ fuel → pos ≤ chars.length →
      SegChain chars pos (segmentLoop d chars pos) ∧
        ∀ s ∈ segmentLoop d chars pos, 1 ≤ s.length ∧ s.candidates ≠ [] := by
  intro fuel
  induction fuel with
  | zero =>
    intro pos h1 h2
    have hp : ¬ pos < chars.length := by omega
    rw [segmentLoop_eq, if_neg hp]
    exact ⟨(by omega : pos = chars.length), by simp⟩
  | succ fuel ih =>
    intro pos h1 h2
    by_cases hp : pos < chars.length
    · rw [segmentLoop_eq, if_pos hp]
      cases htry : tryEndsDown d chars pos (chars.length - pos) with
      | some p =>
        obtain ⟨len, s⟩ := p
        obtain ⟨hl1, hln, hs, _, _⟩ := tryEndsDown_some htry
        have hrec := ih (pos + len) (by omega) (by omega)
        refine ⟨⟨rfl, by rw [hs], hrec.1⟩, ?_⟩
        intro t ht
        rcases List.mem_cons.mp ht with h | h
        · subst h
          exact ⟨hl1, lookup_with_fallback_ne_nil d s⟩
        · exact hrec.2 t h
      | none =>
        have hrec := ih (pos + 1) (by omega) (by omega)
        refine ⟨⟨rfl, rfl, hrec.1⟩, ?_⟩
        intro t ht
        rcases List.mem_cons.mp ht with h | h
        · subst h
          exact ⟨le_rfl, by simp⟩
        · exact hrec.2 t h
    · rw [segmentLoop_eq, if_neg hp]
      exact ⟨(by omega : pos = chars.length), by simp⟩

theorem segChain_flatten {chars : List Char} :
    ∀ {segs : List Segment} {pos : Nat}, SegChain chars pos segs →
      (segs.map Segment.reading).flatten = chars.drop pos := by
  intro segs
  induction segs with
  | nil =>
    intro pos h
    have hp : pos = chars.length := h
    simp [hp, List.drop_length]
  | cons s rest ih =>
    intro pos h
    obtain ⟨hst, hrd, hch⟩ := h
    simp only [List.map_cons, List.flatten_cons]
    rw [hrd, ih hch]
    unfold subAt
    rw [← List.drop_drop]
    exact List.take_append_drop _ _

theorem segChain_sum {chars : List Char} :
    ∀ {segs : List Segment} {pos : Nat}, SegChain chars pos segs →
      pos + (segs.map Segment.length).sum = chars.length := by
  intro segs
  induction segs with
  | nil =>
    intro pos h
    have hp : pos = chars.length := h
    simp [hp]
  | cons s rest ih =>
    intro pos h
    obtain ⟨_, _, hch⟩ := h
    have := ih hch
    simp only [List.map_cons, List.sum_cons]
    omega

theorem segChain_le_start {chars : List Char} :
    ∀ {segs : List Segment} {pos : Nat}, SegChain chars pos segs →
      ∀ s ∈ segs, pos ≤ s.start := by
  intro segs
  induction segs with
  | nil =>
    intro pos _ s hs
    simp at hs
  | cons t rest ih =>
    intro pos h s hs
    obtain ⟨hst, _, hch⟩ := h
    rcases List.mem_cons.mp hs with h1 | h1
    · subst h1
      omega
    · have := ih hch s h1
      omega

theorem segChain_pairwise {chars : List Char} :
    ∀ {segs : List Segment} {pos : Nat}, SegChain chars pos segs →
      (∀ s ∈ segs, 1 ≤ s.length) →
      List.Pairwise (fun a b => a.start < b.start) segs := by
  intro segs
  induction segs with
  | nil => intro pos _ _; exact List.Pairwise.nil
  | cons t rest ih =>
    intro pos h hlen
    obtain ⟨hst, _, hch⟩ := h
    refine List.Pairwise.cons ?_
      (ih hch fun s hs => hlen s (List.mem_cons_of_mem t hs))
    intro b hb
    have h1 := segChain_le_start hch b hb
    have h2 := hlen t (List.mem_cons_self t rest)
    omega

theorem segChain_starts {chars : List Char} :
    ∀ {segs : List Segment} {pos : Nat}, SegChain chars pos segs →
      segs.map Segment.start = startsFrom pos (segs.map Segment.length) := by
  intro segs
  induction segs with
  | nil => intro pos _; rfl
  | cons t rest ih =>
    intro pos h
    obtain ⟨hst, _, hch⟩ := h
    simp only [List.map_cons, startsFrom]
    rw [hst, ih hch]

theorem partitions_specInvariant {chars : List Char} {segs : List Segment}
    (h : Partitions chars segs) : SpecInvariant chars segs := by
  refine ⟨segChain_pairwise h.1 h.2, h.1, ?_, ?_⟩
  · simpa using segChain_flatten h.1
  · have := segChain_sum h.1
    omega

theorem segment_with_info_spec (c : Converter) (chars : List Char) :
    SpecInvariant chars (c.segment_with_info chars) ∧
      ∀ s ∈ c.segment_with_info chars, s.candidates ≠ [] := by
  rcases hc : c.dictionary with _ | d
  · simp only [Converter.segment_with_info, hc]
    refine ⟨⟨?_, ?_, ?_, ?_⟩, ?_⟩
    · simp
    · exact ⟨rfl, by simp [subAt], by simp [SegChain]⟩
    · simp
    · simp
    · intro s hs
      simp only [List.mem_singleton] at hs
      subst hs
      simp
  · simp only [Converter.segment_with_info, hc]
    have h := segmentLoop_chain d chars chars.length 0 (by omega) (by omega)
    exact ⟨partitions_specInvariant ⟨h.1, fun s hs => (h.2 s hs).1⟩,
      fun s hs => (h.2 s hs).2⟩

theorem set_at_append_length {α : Type} (L1 : List α) (y v : α) (L2 : List α) :
    (L1 ++ y :: L2).set L1.length v = L1 ++ v :: L2 := by
  induction L1 with
  | nil => rfl
  | cons a L1 ih =>
    simp only [List.cons_append, List.length_cons, List.set_cons_succ, ih]

theorem getD_at_append_length {α : Type} (L1 : List α) (y : α) (L2 : List α)
    (d : α) : (L1 ++ y :: L2).getD L1.length d = y := by
  induction L1 with
  | nil => rfl
  | cons a L1 ih =>
    simp only [List.cons_append, List.length_cons, List.getD_cons_succ, ih]

theorem boundsOf_shrinkAux (index : Nat) :
    ∀ (segs : List Segment) (i pos : Nat),
      shrinkBoundariesAux index segs i pos = boundsOf pos (shrinkLens index i segs) := by
  intro segs
  induction segs with
  | nil => intro i pos; rfl
  | cons seg rest ih =>
    intro i pos
    simp only [shrinkBoundariesAux, shrinkLens, boundsOf, ih]

theorem boundsOf_extendAux (index : Nat) :
    ∀ (segs : List Segment) (i pos : Nat),
      extendBoundariesAux index segs i pos = boundsOf pos (extendLens index i segs) := by
  intro segs
  induction segs with
  | nil => intro i pos; rfl
  | cons seg rest ih =>
    intro i pos
    simp only [extendBoundariesAux, extendLens, boundsOf, ih]

theorem startsFrom_append (L1 : List Nat) :
    ∀ (pos : Nat) (L2 : List Nat),
      startsFrom pos (L1 ++ L2) = startsFrom pos L1 ++ startsFrom (pos + L1.sum) L2 := by
  induction L1 with
  | nil => intro pos L2; simp [startsFrom]
  | cons l L1 ih =>
    intro pos L2
    simp only [List.cons_append, startsFrom, List.sum_cons, List.append_eq, ih]
    have h : pos + l + L1.sum = pos + (l + L1.sum) := by omega
    rw [h]

theorem startsFrom_length : ∀ (L : List Nat) (pos : Nat),
    (startsFrom pos L).length = L.length := by
  intro L
  induction L with
  | nil => intro pos; rfl
  | cons l L ih =>
    intro pos
    simp only [startsFrom, List.length_cons, ih]

theorem exists_two_split : ∀ (S : List Segment) (index : Nat),
    index + 1 < S.length →
    ∃ P a b Q, S = P ++ a :: b :: Q ∧ P.length = index := by
  intro S
  induction S with
  | nil => intro index h; simp at h
  | cons s S ih =>
    intro index h
    cases index with
    | zero =>
      cases S with
      | nil => simp at h
      | cons t S => exact ⟨[], s, t, S, rfl, rfl⟩
    | succ n =>
      obtain ⟨P, a, b, Q, hS, hP⟩ := ih n (by simp at h ⊢; omega)
      exact ⟨s :: P, a, b, Q, by rw [hS]; rfl, by simp [hP]⟩

theorem shrinkLens_high (index : Nat) :
    ∀ (Q : List Segment) (j : Nat), index + 1 < j →
      shrinkLens index j Q = Q.map Segment.length := by
  intro Q
  induction Q with
  | nil => intro j _; rfl
  | cons q Q ih =>
    intro j hj
    simp only [shrinkLens, List.map_cons]
    rw [if_neg (by omega), if_neg (by omega), ih (j + 1) (by omega)]

theorem extendLens_high (index : Nat) :
    ∀ (Q : List Segment) (j : Nat), index + 1 < j →
      extendLens index j Q = Q.map Segment.length := by
  intro Q
  induction Q with
  | nil => intro j _; rfl
  | cons q Q ih =>
    intro j hj
    simp only [extendLens, List.map_cons]
    rw [if_neg (by omega), if_neg (by omega), ih (j + 1) (by omega)]

theorem shrinkLens_split (index : Nat) :
    ∀ (P : List Segment) (i : Nat) (a b : Segment) (Q : List Segment),
      i + P.length = index →
      shrinkLens index i (P ++ a :: b :: Q) =
        P.map Segment.length ++ (a.length - 1) :: (b.length + 1) :: Q.map Segment.length := by
  intro P
  induction P with
  | nil =>
    intro i a b Q h
    simp only [List.length_nil, Nat.add_zero] at h
    simp only [List.nil_append, shrinkLens, List.map_nil]
    rw [if_pos h, if_neg (by omega), if_pos (by omega),
      shrinkLens_high index Q (i + 2) (by omega)]
  | cons p P ih =>
    intro i a b Q h
    simp only [List.length_cons] at h
    simp only [List.cons_append, shrinkLens, List.map_cons, List.append_eq]
    rw [if_neg (by omega), if_neg (by omega), ih (i + 1) a b Q (by omega)]

theorem extendLens_split (index : Nat) :
    ∀ (P : List Segment) (i : Nat) (a b : Segment) (Q : List Segment),
      i + P.length = index →
      extendLens index i (P ++ a :: b :: Q) =
        P.map Segment.length ++ (a.length + 1) :: (b.length - 1) :: Q.map Segment.length := by
  intro P
  induction P with
  | nil =>
    intro i a b Q h
    simp only [List.length_nil, Nat.add_zero] at h
    simp only [List.nil_append, extendLens, List.map_nil]
    rw [if_pos h, if_neg (by omega), if_pos (by omega),
      extendLens_high index Q (i + 2) (by omega)]
  | cons p P ih =>
    intro i a b Q h
    simp only [List.length_cons] at h
    simp only [List.cons_append, extendLens, List.map_cons, List.append_eq]
    rw [if_neg (by omega), if_neg (by omega), ih (i + 1) a b Q (by omega)]

theorem segChain_append {chars : List Char} :
    ∀ (A : List Segment) {rest : List Segment} {pos : Nat},
      SegChain chars pos (A ++ rest) →
      SegChain chars (pos + (A.map Segment.length).sum) rest := by
  intro A
  induction A with
  | nil =>
    intro rest pos h
    simpa using h
  | cons a A ih =>
    intro rest pos h
    obtain ⟨_, _, hch⟩ := h
    have hrec := ih hch
    simp only [List.map_cons, List.sum_cons]
    have harith : pos + (a.length + (A.map Segment.length).sum) =
        pos + a.length + (A.map Segment.length).sum := by omega
    rw [harith]
    exact hrec

theorem rebuildAux_boundsOf (dict : Option Dictionary) (chars : List Char) :
    ∀ (lens : List Nat) (pos : Nat), (∀ l ∈ lens, 1 ≤ l) →
      pos + lens.sum = chars.length →
      ∃ segs, rebuildAux dict chars (boundsOf pos lens) pos = some segs ∧
        SegChain chars pos segs ∧ segs.map Segment.length = lens ∧
        ∀ s ∈ segs, s.candidates ≠ [] := by
  intro lens
  induction lens with
  | nil =>
    intro pos _ hsum
    simp only [List.sum_nil, Nat.add_zero] at hsum
    exact ⟨[], rfl, hsum, rfl, by simp⟩
  | cons l lens ih =>
    intro pos hl hsum
    have hl1 : 1 ≤ l := hl l (List.mem_cons_self l lens)
    have hsum2 : pos + (l + lens.sum) = chars.length := by simpa using hsum
    simp only [boundsOf, rebuildAux]
    rw [if_neg (by omega : ¬ (chars.length ≤ pos ∨ pos + l ≤ pos)),
      if_neg (by omega : ¬ chars.length < pos + l)]
    obtain ⟨segs, hre, hch, hlen, hcand⟩ :=
      ih (pos + l) (fun t ht => hl t (List.mem_cons_of_mem l ht)) (by omega)
    rw [hre]
    have hcancel : pos + l - pos = l := by omega
    refine ⟨_, rfl, ⟨rfl, by rw [hcancel], by rw [hcancel]; exact hch⟩,
      by simp only [List.map_cons, hcancel, hlen], ?_⟩
    intro s hs
    rcases List.mem_cons.mp hs with h1 | h1
    · subst h1
      cases dict with
      | none => simp
      | some dd => exact lookup_with_fallback_ne_nil dd _
    · exact hcand s h1

theorem adjust_noop (c : Converter) (chars : List Char) (S : List Segment)
    (i : Nat) (d : AdjustDirection)
    (h : S.length ≤ i + 1 ∨ (d = .Shrink ∧ (S.getD i default).length ≤ 1) ∨
         (d = .Extend ∧ (S.getD (i + 1) default).length ≤ 1)) :
    c.adjust_segment chars S i d = some S := by
  unfold Converter.adjust_segment
  by_cases hlen : S.length ≤ i
  · rw [if_pos hlen]
  · rw [if_neg hlen]
    have hcan : Converter.can_adjust S i d = false := by
      unfold Converter.can_adjust
      by_cases hg : S.length - 1 ≤ i
      · rw [if_pos hg]
      · rw [if_neg hg]
        rcases h with h | ⟨hd, hle⟩ | ⟨hd, hle⟩
        · exact absurd (by omega : S.length ≤ i) hlen
        · subst hd
          exact decide_eq_false_iff_not.mpr (by omega)
        · subst hd
          exact decide_eq_false_iff_not.mpr (by omega)
    simp [hcan]

theorem can_adjust_true {S : List Segment} {i : Nat} {d : AdjustDirection}
    (h : Converter.can_adjust S i d = true) :
    i + 1 < S.length ∧
      (d = .Shrink → 2 ≤ (S.getD i default).length) ∧
      (d = .Extend → 2 ≤ (S.getD (i + 1) default).length) := by
  unfold Converter.can_adjust at h
  by_cases hg : S.length - 1 ≤ i
  · rw [if_pos hg] at h
    simp at h
  · rw [if_neg hg] at h
    refine ⟨by omega, ?_, ?_⟩
    · intro hd
      subst hd
      have h2 : 1 < (S.getD i default).length := of_decide_eq_true h
      omega
    · intro hd
      subst hd
      have h2 : 1 < (S.getD (i + 1) default).length := of_decide_eq_true h
      omega

theorem getD_set_self (l : List Nat) : ∀ (n v : Nat), n < l.length →
    (l.set n v).getD n 0 = v := by
  induction l with
  | nil => intro n v h; simp at h
  | cons a l ih =>
    intro n v h
    cases n with
    | zero => rfl
    | succ n =>
      simp only [List.set_cons_succ, List.getD_cons_succ]
      exact ih n v (by simp at h; omega)

theorem getD_set_ne (l : List Nat) : ∀ (n m v : Nat), n ≠ m →
    (l.set n v).getD m 0 = l.getD m 0 := by
  induction l with
  | nil => intro n m v _; rfl
  | cons a l ih =>
    intro n m v hne
    cases n with
    | zero =>
      cases m with
      | zero => exact absurd rfl hne
      | succ m => rfl
    | succ n =>
      cases m with
      | zero => rfl
      | succ m =>
        simp only [List.set_cons_succ, List.getD_cons_succ]
        exact ih n m v (by omega)

theorem set_getD_id (l : List Nat) : ∀ (n : Nat), n < l.length →
    l.set n (l.getD n 0) = l := by
  induction l with
  | nil => intro n h; simp at h
  | cons a l ih =>
    intro n h
    cases n with
    | zero => rfl
    | succ n =>
      simp only [List.getD_cons_succ, List.set_cons_succ]
      rw [ih n (by simp at h; omega)]

theorem getD_map_field (f : Segment → Nat) :
    ∀ (A : List Segment) (j : Nat), j < A.length →
      (A.map f).getD j 0 = f (A.getD j default) := by
  intro A
  induction A with
  | nil => intro j h; simp at h
  | cons a A ih =>
    intro j h
    cases j with
    | zero => rfl
    | succ j =>
      simp only [List.map_cons, List.getD_cons_succ]
      exact ih j (by simp at h; omega)

theorem getD_mem {α : Type} (l : List α) : ∀ (n : Nat) (d : α), n < l.length →
    l.getD n d ∈ l := by
  induction l with
  | nil => intro n d h; simp at h
  | cons a l ih =>
    intro n d h
    cases n with
    | zero => exact List.mem_cons_self a l
    | succ n =>
      simp only [List.getD_cons_succ]
      exact List.mem_cons_of_mem a (ih n d (by simp at h; omega))

theorem adjust_shrink_spec (c : Converter) (chars : List Char) (S : List Segment)
    (i : Nat) (hP : Partitions chars S)
    (hcan : Converter.can_adjust S i .Shrink = true) :
    ∃ T, c.adjust_segment chars S i .Shrink = some T ∧ Partitions chars T ∧
      (∀ s ∈ T, s.candidates ≠ []) ∧
      T.map Segment.length =
        ((S.map Segment.length).set i ((S.getD i default).length - 1)).set (i + 1)
          ((S.getD (i + 1) default).length + 1) ∧
      T.map Segment.start =
        (S.map Segment.start).set (i + 1) ((S.getD (i + 1) default).start - 1) ∧
      1 ≤ (S.getD (i + 1) default).start := by
  obtain ⟨hi1, hsh, _⟩ := can_adjust_true hcan
  have ha2 : 2 ≤ (S.getD i default).length := hsh rfl
  obtain ⟨P, a, b, Q, hS, hPlen⟩ := exists_two_split S i hi1
  subst hS
  have hgetA : (P ++ a :: b :: Q).getD i default = a := by
    rw [← hPlen]
    exact getD_at_append_length P a (b :: Q) default
  have hgetB : (P ++ a :: b :: Q).getD (i + 1) default = b := by
    have h1 : P ++ a :: b :: Q = (P ++ [a]) ++ b :: Q := by simp
    have h2 : (P ++ [a]).length = i + 1 := by simp [hPlen]
    rw [h1, ← h2]
    exact getD_at_append_length (P ++ [a]) b Q default
  rw [hgetA] at ha2
  have hchainS := hP.1
  have hmid := segChain_append P hchainS
  obtain ⟨hastart, _, hmid2⟩ := hmid
  obtain ⟨hbstart, _, _⟩ := hmid2
  have hone : ∀ s ∈ P ++ a :: b :: Q, 1 ≤ s.length := hP.2
  have hlens := shrinkLens_split i P 0 a b Q (by omega)
  have hsumS := segChain_sum hchainS
  have hsumS2 : (P.map Segment.length).sum + a.length + b.length +
      (Q.map Segment.length).sum = chars.length := by
    simp only [List.map_append, List.sum_append, List.map_cons, List.sum_cons] at hsumS
    omega
  have hallpos : ∀ l ∈ P.map Segment.length ++ (a.length - 1) :: (b.length + 1) ::
      Q.map Segment.length, 1 ≤ l := by
    intro l hl
    rcases List.mem_append.mp hl with hl | hl
    · obtain ⟨s, hs, rfl⟩ := List.mem_map.mp hl
      exact hone s (List.mem_append.mpr (Or.inl hs))
    · rcases List.mem_cons.mp hl with rfl | hl
      · omega
      · rcases List.mem_cons.mp hl with rfl | hl
        · omega
        · obtain ⟨s, hs, rfl⟩ := List.mem_map.mp hl
          exact hone s (by simp [hs])
  have hsumlens : 0 + (P.map Segment.length ++ (a.length - 1) :: (b.length + 1) ::
      Q.map Segment.length).sum = chars.length := by
    simp only [List.sum_append, List.sum_cons]
    omega
  obtain ⟨T, hre, hch, hlenT, hcand⟩ :=
    rebuildAux_boundsOf c.dictionary chars _ 0 hallpos hsumlens
  have hlenlist : (P ++ a :: b :: Q).length = P.length + (Q.length + 2) := by
    simp [List.length_append]
  have hnotle : ¬ (P ++ a :: b :: Q).length ≤ i := by omega
  have hadj : c.adjust_segment chars (P ++ a :: b :: Q) i .Shrink = some T := by
    unfold Converter.adjust_segment
    rw [if_neg hnotle, if_pos hcan]
    show c.rebuild_segments_from_boundaries chars
      (Converter.calculate_shrink_boundaries (P ++ a :: b :: Q) i) = some T
    unfold Converter.rebuild_segments_from_boundaries Converter.calculate_shrink_boundaries
    rw [boundsOf_shrinkAux, hlens]
    exact hre
  have hmapS : (P ++ a :: b :: Q).map Segment.length =
      P.map Segment.length ++ a.length :: b.length :: Q.map Segment.length := by
    simp
  have hlp : (P.map Segment.length).length = i := by simp [hPlen]
  refine ⟨T, hadj, ⟨hch, ?_⟩, hcand, ?_, ?_, ?_⟩
  · intro s hs
    have hmem : s.length ∈ T.map Segment.length := List.mem_map_of_mem Segment.length hs
    rw [hlenT] at hmem
    exact hallpos _ hmem
  · rw [hlenT, hgetA, hgetB, hmapS]
    have hset1 : (P.map Segment.length ++ a.length :: b.length ::
        Q.map Segment.length).set i (a.length - 1) =
        P.map Segment.length ++ (a.length - 1) :: b.length :: Q.map Segment.length := by
      rw [← hlp]
      exact set_at_append_length _ _ _ _
    rw [hset1]
    have hassoc2 : P.map Segment.length ++ (a.length - 1) :: b.length ::
        Q.map Segment.length =
        (P.map Segment.length ++ [a.length - 1]) ++ b.length :: Q.map Segment.length := by
      simp
    have hlp2 : (P.map Segment.length ++ [a.length - 1]).length = i + 1 := by
      simp [hPlen]
    rw [hassoc2, ← hlp2, set_at_append_length]
    simp
  · rw [segChain_starts hch, hlenT, hgetB, segChain_starts hchainS, hmapS]
    rw [startsFrom_append, startsFrom_append]
    simp only [startsFrom]
    have hassoc3 : startsFrom 0 (P.map Segment.length) ++
        (0 + (P.map Segment.length).sum) ::
        (0 + (P.map Segment.length).sum + a.length) ::
        startsFrom (0 + (P.map Segment.length).sum + a.length + b.length)
          (Q.map Segment.length) =
        (startsFrom 0 (P.map Segment.length) ++ [0 + (P.map Segment.length).sum]) ++
        (0 + (P.map Segment.length).sum + a.length) ::
        startsFrom (0 + (P.map Segment.length).sum + a.length + b.length)
          (Q.map Segment.length) := by
      simp
    have hlp3 : (startsFrom 0 (P.map Segment.length) ++
        [0 + (P.map Segment.length).sum]).length = i + 1 := by
      simp [startsFrom_length, hPlen]
    rw [hassoc3, ← hlp3, set_at_append_length]
    have e1 : 0 + (P.map Segment.length).sum + (a.length - 1) = b.start - 1 := by
      omega
    have e2 : 0 + (P.map Segment.length).sum + (a.length - 1) + (b.length + 1) =
        0 + (P.map Segment.length).sum + a.length + b.length := by
      omega
    rw [e2, e1]
    simp
  · rw [hgetB]
    omega

theorem adjust_extend_spec (c : Converter) (chars : List Char) (S : List Segment)
    (i : Nat) (hP : Partitions chars S)
    (hcan : Converter.can_adjust S i .Extend = true) :
    ∃ T, c.adjust_segment chars S i .Extend = some T ∧ Partitions chars T ∧
      (∀ s ∈ T, s.candidates ≠ []) ∧
      T.map Segment.length =
        ((S.map Segment.length).set i ((S.getD i default).length + 1)).set (i + 1)
          ((S.getD (i + 1) default).length - 1) ∧
      T.map Segment.start =
        (S.map Segment.start).set (i + 1) ((S.getD (i + 1) default).start + 1) := by
  obtain ⟨hi1, _, hsh⟩ := can_adjust_true hcan
  have hb2 : 2 ≤ (S.getD (i + 1) default).length := hsh rfl
  obtain ⟨P, a, b, Q, hS, hPlen⟩ := exists_two_split S i hi1
  subst hS
  have hgetA : (P ++ a :: b :: Q).getD i default = a := by
    rw [← hPlen]
    exact getD_at_append_length P a (b :: Q) default
  have hgetB : (P ++ a :: b :: Q).getD (i + 1) default = b := by
    have h1 : P ++ a :: b :: Q = (P ++ [a]) ++ b :: Q := by simp
    have h2 : (P ++ [a]).length = i + 1 := by simp [hPlen]
    rw [h1, ← h2]
    exact getD_at_append_length (P ++ [a]) b Q default
  rw [hgetB] at hb2
  have hchainS := hP.1
  have hmid := segChain_append P hchainS
  obtain ⟨hastart, _, hmid2⟩ := hmid
  obtain ⟨hbstart, _, _⟩ := hmid2
  have hone : ∀ s ∈ P ++ a :: b :: Q, 1 ≤ s.length := hP.2
  have hlens := extendLens_split i P 0 a b Q (by omega)
  have hsumS := segChain_sum hchainS
  have hsumS2 : (P.map Segment.length).sum + a.length + b.length +
      (Q.map Segment.length).sum = chars.length := by
    simp only [List.map_append, List.sum_append, List.map_cons, List.sum_cons] at hsumS
    omega
  have hallpos : ∀ l ∈ P.map Segment.length ++ (a.length + 1) :: (b.length - 1) ::
      Q.map Segment.length, 1 ≤ l := by
    intro l hl
    rcases List.mem_append.mp hl with hl | hl
    · obtain ⟨s, hs, rfl⟩ := List.mem_map.mp hl
      exact hone s (List.mem_append.mpr (Or.inl hs))
    · rcases List.mem_cons.mp hl with rfl | hl
      · omega
      · rcases List.mem_cons.mp hl with rfl | hl
        · omega
        · obtain ⟨s, hs, rfl⟩ := List.mem_map.mp hl
          exact hone s (by simp [hs])
  have hsumlens : 0 + (P.map Segment.length ++ (a.length + 1) :: (b.length - 1) ::
      Q.map Segment.length).sum = chars.length := by
    simp only [List.sum_append, List.sum_cons]
    omega
  obtain ⟨T, hre, hch, hlenT, hcand⟩ :=
    rebuildAux_boundsOf c.dictionary chars _ 0 hallpos hsumlens
  have hlenlist : (P ++ a :: b :: Q).length = P.length + (Q.length + 2) := by
    simp [List.length_append]
  have hnotle : ¬ (P ++ a :: b :: Q).length ≤ i := by omega
  have hadj : c.adjust_segment chars (P ++ a :: b :: Q) i .Extend = some T := by
    unfold Converter.adjust_segment
    rw [if_neg hnotle, if_pos hcan]
    show c.rebuild_segments_from_boundaries chars
      (Converter.calculate_extend_boundaries (P ++ a :: b :: Q) i) = some T
    unfold Converter.rebuild_segments_from_boundaries Converter.calculate_extend_boundaries
    rw [boundsOf_extendAux, hlens]
    exact hre
  have hmapS : (P ++ a :: b :: Q).map Segment.length =
      P.map Segment.length ++ a.length :: b.length :: Q.map Segment.length := by
    simp
  have hlp : (P.map Segment.length).length = i := by simp [hPlen]
  refine ⟨T, hadj, ⟨hch, ?_⟩, hcand, ?_, ?_⟩
  · intro s hs
    have hmem : s.length ∈ T.map Segment.length := List.mem_map_of_mem Segment.length hs
    rw [hlenT] at hmem
    exact hallpos _ hmem
  · rw [hlenT, hgetA, hgetB, hmapS]
    have hset1 : (P.map Segment.length ++ a.length :: b.length ::
        Q.map Segment.length).set i (a.length + 1) =
        P.map Segment.length ++ (a.length + 1) :: b.length :: Q.map Segment.length := by
      rw [← hlp]
      exact set_at_append_length _ _ _ _
    rw [hset1]
    have hassoc2 : P.map Segment.length ++ (a.length + 1) :: b.length ::
        Q.map Segment.length =
        (P.map Segment.length ++ [a.length + 1]) ++ b.length :: Q.map Segment.length := by
      simp
    have hlp2 : (P.map Segment.length ++ [a.length + 1]).length = i + 1 := by
      simp [hPlen]
    rw [hassoc2, ← hlp2, set_at_append_length]
    simp
  · rw [segChain_starts hch, hlenT, hgetB, segChain_starts hchainS, hmapS]
    rw [startsFrom_append, startsFrom_append]
    simp only [startsFrom]
    have hassoc3 : startsFrom 0 (P.map Segment.length) ++
        (0 + (P.map Segment.length).sum) ::
        (0 + (P.map Segment.length).sum + a.length) ::
        startsFrom (0 + (P.map Segment.length).sum + a.length + b.length)
          (Q.map Segment.length) =
        (startsFrom 0 (P.map Segment.length) ++ [0 + (P.map Segment.length).sum]) ++
        (0 + (P.map Segment.length).sum + a.length) ::
        startsFrom (0 + (P.map Segment.length).sum + a.length + b.length)
          (Q.map Segment.length) := by
      simp
    have hlp3 : (startsFrom 0 (P.map Segment.length) ++
        [0 + (P.map Segment.length).sum]).length = i + 1 := by
      simp [startsFrom_length, hPlen]
    rw [hassoc3, ← hlp3, set_at_append_length]
    have e2 : 0 + (P.map Segment.length).sum + (a.length + 1) + (b.length - 1) =
        0 + (P.map Segment.length).sum + a.length + b.length := by
      omega
    have e1 : 0 + (P.map Segment.length).sum + (a.length + 1) = b.start + 1 := by
      omega
    rw [e2, e1]
    simp

theorem adjust_eq_of_can_false (c : Converter) (chars : List Char)
    (S : List Segment) (i : Nat) (d : AdjustDirection)
    (hcan : Converter.can_adjust S i d = false) :
    c.adjust_segment chars S i d = some S := by
  unfold Converter.adjust_segment
  by_cases hlen : S.length ≤ i
  · rw [if_pos hlen]
  · rw [if_neg hlen]
    simp [hcan]

theorem headD_of_ne_nil {l : List (List Char)} (h : l ≠ []) (r : List Char) :
    l.head? = some (l.headD r) := by
  cases l with
  | nil => exact absurd rfl h
  | cons a l => rfl

theorem convert_nodup (c : Converter) (chars : List Char) :
    (c.convert_with_segments chars).combined_candidates.Nodup := by
  unfold Converter.convert_with_segments
  by_cases h : chars = []
  · rw [if_pos h]
    exact List.nodup_nil
  · rw [if_neg h]
    dsimp only
    split
    · rename_i hne
      refine List.nodup_cons.mpr ⟨?_, by simp⟩
      simp only [List.mem_singleton]
      exact hne
    · simp

theorem foldl_pushIfAbsent (L : List (List Char)) :
    ∀ (Z : List (List Char)), L.Nodup →
      L.foldl pushIfAbsent Z = Z ++ L.filter (fun x => decide (x ∉ Z)) := by
  induction L with
  | nil => intro Z _; simp
  | cons x L ih =>
    intro Z hnd
    rw [List.foldl_cons]
    have hx : x ∉ L := (List.nodup_cons.mp hnd).1
    have hL : L.Nodup := (List.nodup_cons.mp hnd).2
    by_cases hmem : x ∈ Z
    · have hpush : pushIfAbsent Z x = Z := by simp [pushIfAbsent, hmem]
      rw [hpush, ih Z hL]
      have hfe : (x :: L).filter (fun y => decide (y ∉ Z)) =
          L.filter (fun y => decide (y ∉ Z)) := by
        simp [List.filter_cons, hmem]
      rw [hfe]
    · have hpush : pushIfAbsent Z x = Z ++ [x] := by simp [pushIfAbsent, hmem]
      rw [hpush, ih _ hL]
      have hfilter : L.filter (fun y => decide (y ∉ Z ++ [x])) =
          L.filter (fun y => decide (y ∉ Z)) := by
        apply List.filter_congr
        intro y hy
        have hyx : y ≠ x := fun he => hx (he ▸ hy)
        rw [decide_eq_decide]
        simp [List.mem_append, hyx]
      rw [hfilter]
      have hfe : (x :: L).filter (fun y => decide (y ∉ Z)) =
          x :: L.filter (fun y => decide (y ∉ Z)) := by
        simp [List.filter_cons, hmem]
      rw [hfe]
      simp

theorem rebuildAux_candidates (dict : Option Dictionary) (chars : List Char) :
    ∀ (bs : List Nat) (start : Nat) (segs : List Segment),
      rebuildAux dict chars bs start = some segs → ∀ s ∈ segs, s.candidates ≠ [] := by
  intro bs
  induction bs with
  | nil =>
    intro start segs h s hs
    simp only [rebuildAux, Option.some.injEq] at h
    subst h
    simp at hs
  | cons e rest ih =>
    intro start segs h s hs
    simp only [rebuildAux] at h
    by_cases h1 : chars.length ≤ start ∨ e ≤ start
    · rw [if_pos h1] at h
      exact ih start segs h s hs
    · rw [if_neg h1] at h
      by_cases h2 : chars.length < e
      · rw [if_pos h2] at h
        exact absurd h (by simp)
      · rw [if_neg h2] at h
        cases hre : rebuildAux dict chars rest e with
        | none =>
          rw [hre] at h
          exact absurd h (by simp)
        | some segs2 =>
          rw [hre] at h
          simp only [Option.some.injEq] at h
          subst h
          rcases List.mem_cons.mp hs with rfl | hs2
          · cases dict with
            | none => simp
            | some dd => exact lookup_with_fallback_ne_nil dd _
          · exact ih e segs2 hre s hs2

theorem tryEndsDown_empty (chars : List Char) (pos : Nat) :
    ∀ n, tryEndsDown ⟨[], []⟩ chars pos n = none := by
  intro n
  induction n with
  | zero => rfl
  | succ n ih =>
    rw [tryEndsDown, if_neg (by simp [Dictionary.lookup, assocLookup])]
    exact ih

theorem segmentLoop_empty_dict (chars : List Char) :
    ∀ fuel pos, chars.length - pos ≤ fuel →
      segmentLoop ⟨[], []⟩ chars pos = singletonSegsFrom (chars.drop pos) pos := by
  intro fuel
  induction fuel with
  | zero =>
    intro pos h
    have hp : ¬ pos < chars.length := by omega
    rw [segmentLoop_eq, if_neg hp]
    have hd : chars.drop pos = [] := List.drop_eq_nil_of_le (by omega)
    rw [hd]
    rfl
  | succ fuel ih =>
    intro pos h
    by_cases hp : pos < chars.length
    · rw [segmentLoop_eq, if_pos hp, tryEndsDown_empty]
      obtain ⟨ch, rest, hdrop⟩ : ∃ ch rest, chars.drop pos = ch :: rest := by
        cases hd : chars.drop pos with
        | nil =>
          have := List.length_drop pos chars
          rw [hd] at this
          simp at this
          omega
        | cons ch rest => exact ⟨ch, rest, rfl⟩
      have hrest : chars.drop (pos + 1) = rest := by
        have h1 : chars.drop (pos + 1) = (chars.drop pos).drop 1 := by
          rw [List.drop_drop]
        rw [h1, hdrop]
        rfl
      have hsub : subAt chars pos 1 = [ch] := by
        unfold subAt
        rw [hdrop]
        rfl
      rw [hdrop]
      dsimp only
      simp only [singletonSegsFrom]
      rw [hsub, ih (pos + 1) (by omega), hrest]
    · rw [segmentLoop_eq, if_neg hp]
      have hd : chars.drop pos = [] := List.drop_eq_nil_of_le (by omega)
      rw [hd]
      rfl

theorem singletonSegsFrom_first : ∀ (cs : List Char) (pos : Nat),
    ((singletonSegsFrom cs pos).map fun s => s.candidates.headD s.reading).flatten
      = cs := by
  intro cs
  induction cs with
  | nil => intro pos; rfl
  | cons ch cs ih =>
    intro pos
    simp only [singletonSegsFrom, List.map_cons, List.flatten_cons]
    rw [ih (pos + 1)]
    rfl

/-- C1: for every reading and every Lexicon, the segment list returned by
`segment_with_info` is ordered by start ascending, contiguous, non-overlapping,
its readings concatenate to exactly the reading and its lengths sum to the
reading's character count; and `adjust_segment` returns a list with the same
properties whenever its input list partitions the reading. -/
theorem claim1_segments_invariant (c : Converter) (chars : List Char)
    (S : List Segment) (i : Nat) (d : AdjustDirection)
    (hS : Partitions chars S) :
    SpecInvariant chars (c.segment_with_info chars) ∧
      ∃ T, c.adjust_segment chars S i d = some T ∧ SpecInvariant chars T := by
  refine ⟨(segment_with_info_spec c chars).1, ?_⟩
  by_cases hcan : Converter.can_adjust S i d = true
  · cases d with
    | Shrink =>
      obtain ⟨T, hadj, hPT, _, _, _, _⟩ := adjust_shrink_spec c chars S i hS hcan
      exact ⟨T, hadj, partitions_specInvariant hPT⟩
    | Extend =>
      obtain ⟨T, hadj, hPT, _, _, _⟩ := adjust_extend_spec c chars S i hS hcan
      exact ⟨T, hadj, partitions_specInvariant hPT⟩
  · have hcan2 : Converter.can_adjust S i d = false := by
      cases hcb : Converter.can_adjust S i d with
      | false => rfl
      | true => exact absurd hcb hcan
    exact ⟨S, adjust_eq_of_can_false c chars S i d hcan2,
      partitions_specInvariant hS⟩

theorem claim1_witness :
    Partitions ['あ', 'い', 'う']
        [⟨['あ', 'い'], 0, 2, [['あ', 'い']]⟩, ⟨['う'], 2, 1, [['う']]⟩] ∧
      (SpecInvariant ['あ', 'い', 'う']
          ((Converter.mk none).segment_with_info ['あ', 'い', 'う']) ∧
        ∃ T, (Converter.mk none).adjust_segment ['あ', 'い', 'う']
            [⟨['あ', 'い'], 0, 2, [['あ', 'い']]⟩, ⟨['う'], 2, 1, [['う']]⟩] 0
            AdjustDirection.Shrink = some T ∧
          SpecInvariant ['あ', 'い', 'う'] T) := by
  have hpart : Partitions ['あ', 'い', 'う']
      [⟨['あ', 'い'], 0, 2, [['あ', 'い']]⟩, ⟨['う'], 2, 1, [['う']]⟩] :=
    ⟨⟨rfl, rfl, rfl, rfl, rfl⟩, by decide⟩
  exact ⟨hpart,
    claim1_segments_invariant (Converter.mk none) ['あ', 'い', 'う'] _ 0
      AdjustDirection.Shrink hpart⟩

/-- C4: `adjust_segment` returns the input list unchanged, with no error, whenever
the request is illegal: the index does not name an existing non-last segment, or a
shrink targets a segment of length at most one, or an extend targets a successor
of length at most one.  In particular, the last segment index is always a no-op. -/
theorem claim4_illegal_adjust_noop (c : Converter) (chars : List Char)
    (S : List Segment) (i : Nat) (d : AdjustDirection)
    (h : S.length ≤ i + 1 ∨ (d = .Shrink ∧ (S.getD i default).length ≤ 1) ∨
         (d = .Extend ∧ (S.getD (i + 1) default).length ≤ 1)) :
    c.adjust_segment chars S i d = some S :=
  adjust_noop c chars S i d h

theorem claim4_witness :
    (([⟨['あ'], 0, 1, [['あ']]⟩, ⟨['い'], 1, 1, [['い']]⟩] : List Segment).length
        ≤ 1 + 1) ∧
      (Converter.mk none).adjust_segment ['あ', 'い']
          [⟨['あ'], 0, 1, [['あ']]⟩, ⟨['い'], 1, 1, [['い']]⟩] 1
          AdjustDirection.Extend =
        some [⟨['あ'], 0, 1, [['あ']]⟩, ⟨['い'], 1, 1, [['い']]⟩] :=
  ⟨by decide,
    claim4_illegal_adjust_noop (Converter.mk none) ['あ', 'い']
      [⟨['あ'], 0, 1, [['あ']]⟩, ⟨['い'], 1, 1, [['い']]⟩] 1
      AdjustDirection.Extend (Or.inl (by decide))⟩

theorem claim8_counterexample :
    (Converter.mk none).adjust_segment ['あ', 'い']
      [⟨['あ'], 0, 2, []⟩, ⟨['い'], 2, 3, []⟩] 0 AdjustDirection.Extend = none := rfl

/-- C8 (amended): `convert_with_segments` is total, and `adjust_segment` runs to
completion and returns a result for every index and direction whenever the input
segment list partitions the reading; a caller-supplied list whose lengths overrun
the reading can instead drive the boundary rebuild's slice out of bounds. -/
theorem claim8_amended (c : Converter) (chars : List Char) (S : List Segment)
    (i : Nat) (d : AdjustDirection) (hS : Partitions chars S) :
    ∃ T, c.adjust_segment chars S i d = some T := by
  by_cases hcan : Converter.can_adjust S i d = true
  · cases d with
    | Shrink =>
      obtain ⟨T, hadj, _⟩ := adjust_shrink_spec c chars S i hS hcan
      exact ⟨T, hadj⟩
    | Extend =>
      obtain ⟨T, hadj, _⟩ := adjust_extend_spec c chars S i hS hcan
      exact ⟨T, hadj⟩
  · have hcan2 : Converter.can_adjust S i d = false := by
      cases hcb : Converter.can_adjust S i d with
      | false => rfl
      | true => exact absurd hcb hcan
    exact ⟨S, adjust_eq_of_can_false c chars S i d hcan2⟩

theorem claim8_witness :
    Partitions ['あ', 'い', 'う']
        [⟨['あ', 'い'], 0, 2, [['あ', 'い']]⟩, ⟨['う'], 2, 1, [['う']]⟩] ∧
      ∃ T, (Converter.mk none).adjust_segment ['あ', 'い', 'う']
          [⟨['あ', 'い'], 0, 2, [['あ', 'い']]⟩, ⟨['う'], 2, 1, [['う']]⟩] 0
          AdjustDirection.Extend = some T := by
  have hpart : Partitions ['あ', 'い', 'う']
      [⟨['あ', 'い'], 0, 2, [['あ', 'い']]⟩, ⟨['う'], 2, 1, [['う']]⟩] :=
    ⟨⟨rfl, rfl, rfl, rfl, rfl⟩, by decide⟩
  exact ⟨hpart,
    claim8_amended (Converter.mk none) ['あ', 'い', 'う'] _ 0
      AdjustDirection.Extend hpart⟩

/-- C5: on a partitioning segment list, a legal shrink at `i` moves only the
boundary between segments `i` and `i + 1` by exactly one character (the target
loses its last character, the successor starts one earlier and grows by one), and
the following extend at `i` restores every segment's start and length. -/
theorem claim5_shrink_extend_round_trip (c : Converter) (chars : List Char)
    (S : List Segment) (i : Nat) (hS : Partitions chars S)
    (hcan : Converter.can_adjust S i .Shrink = true) :
    ∃ T U, c.adjust_segment chars S i .Shrink = some T ∧
      c.adjust_segment chars T i .Extend = some U ∧
      T.map Segment.length =
        ((S.map Segment.length).set i ((S.getD i default).length - 1)).set (i + 1)
          ((S.getD (i + 1) default).length + 1) ∧
      T.map Segment.start =
        (S.map Segment.start).set (i + 1) ((S.getD (i + 1) default).start - 1) ∧
      U.map Segment.start = S.map Segment.start ∧
      U.map Segment.length = S.map Segment.length := by
  obtain ⟨hi1, hsh, _⟩ := can_adjust_true hcan
  have ha2 : 2 ≤ (S.getD i default).length := hsh rfl
  obtain ⟨T, hadjT, hPT, _, hTlen, hTstart, hbstart1⟩ :=
    adjust_shrink_spec c chars S i hS hcan
  have hTlength : T.length = S.length := by
    have h1 : (T.map Segment.length).length =
        (((S.map Segment.length).set i ((S.getD i default).length - 1)).set (i + 1)
          ((S.getD (i + 1) default).length + 1)).length := by rw [hTlen]
    simpa [List.length_map, List.length_set] using h1
  have hi1T : i + 1 < T.length := by omega
  have hsetlen1 : i < (S.map Segment.length).length := by
    simp [List.length_map]
    omega
  have hsetlen2 : i + 1 < ((S.map Segment.length).set i
      ((S.getD i default).length - 1)).length := by
    simp [List.length_map, List.length_set]
    omega
  have hTgetB_len : (T.getD (i + 1) default).length =
      (S.getD (i + 1) default).length + 1 := by
    rw [← getD_map_field Segment.length T (i + 1) hi1T, hTlen]
    exact getD_set_self _ _ _ hsetlen2
  have hTgetA_len : (T.getD i default).length = (S.getD i default).length - 1 := by
    rw [← getD_map_field Segment.length T i (by omega), hTlen,
      getD_set_ne _ (i + 1) i _ (by omega)]
    exact getD_set_self _ _ _ hsetlen1
  have hsetstart : i + 1 < (S.map Segment.start).length := by
    simp [List.length_map]
    omega
  have hTgetB_start : (T.getD (i + 1) default).start =
      (S.getD (i + 1) default).start - 1 := by
    rw [← getD_map_field Segment.start T (i + 1) hi1T, hTstart]
    exact getD_set_self _ _ _ hsetstart
  have hb1 : 1 ≤ (S.getD (i + 1) default).length :=
    hS.2 _ (getD_mem S (i + 1) default (by omega))
  have hcanT : Converter.can_adjust T i .Extend = true := by
    unfold Converter.can_adjust
    rw [if_neg (by omega : ¬ T.length - 1 ≤ i)]
    exact decide_eq_true_eq.mpr (by omega)
  obtain ⟨U, hadjU, _, _, hUlen, hUstart⟩ := adjust_extend_spec c chars T i hPT hcanT
  refine ⟨T, U, hadjT, hadjU, hTlen, hTstart, ?_, ?_⟩
  · rw [hUstart, hTgetB_start, hTstart, List.set_set]
    have hplus : (S.getD (i + 1) default).start - 1 + 1 =
        (S.getD (i + 1) default).start := by omega
    rw [hplus]
    have hval : (S.map Segment.start).getD (i + 1) 0 =
        (S.getD (i + 1) default).start :=
      getD_map_field Segment.start S (i + 1) hi1
    rw [← hval]
    exact set_getD_id _ _ hsetstart
  · rw [hUlen, hTgetA_len, hTgetB_len, hTlen]
    have e1 : (S.getD i default).length - 1 + 1 = (S.getD i default).length := by
      omega
    have e2 : (S.getD (i + 1) default).length + 1 - 1 =
        (S.getD (i + 1) default).length := by omega
    rw [e1, e2, List.set_comm _ _ _ (by omega : i + 1 ≠ i), List.set_set,
      List.set_set]
    have hvalA : (S.map Segment.length).getD i 0 = (S.getD i default).length :=
      getD_map_field Segment.length S i (by omega)
    have hvalB : (S.map Segment.length).getD (i + 1) 0 =
        (S.getD (i + 1) default).length :=
      getD_map_field Segment.length S (i + 1) (by omega)
    rw [← hvalA, set_getD_id _ _ hsetlen1, ← hvalB]
    exact set_getD_id _ _ (by simp [List.length_map]; omega)

theorem claim5_witness :
    Partitions ['あ', 'い', 'う']
        [⟨['あ', 'い'], 0, 2, [['あ', 'い']]⟩, ⟨['う'], 2, 1, [['う']]⟩] ∧
      Converter.can_adjust
          [⟨['あ', 'い'], 0, 2, [['あ', 'い']]⟩, ⟨['う'], 2, 1, [['う']]⟩] 0
          AdjustDirection.Shrink = true ∧
      ∃ T U, (Converter.mk none).adjust_segment ['あ', 'い', 'う']
            [⟨['あ', 'い'], 0, 2, [['あ', 'い']]⟩, ⟨['う'], 2, 1, [['う']]⟩] 0
            AdjustDirection.Shrink = some T ∧
          (Converter.mk none).adjust_segment ['あ', 'い', 'う'] T 0
            AdjustDirection.Extend = some U ∧
          T.map Segment.length =
            ((([⟨['あ', 'い'], 0, 2, [['あ', 'い']]⟩, ⟨['う'], 2, 1, [['う']]⟩] : List Segment).map
                Segment.length).set 0
              ((([⟨['あ', 'い'], 0, 2, [['あ', 'い']]⟩,
                  ⟨['う'], 2, 1, [['う']]⟩] : List Segment).getD 0 default).length - 1)).set 1
              ((([⟨['あ', 'い'], 0, 2, [['あ', 'い']]⟩,
                  ⟨['う'], 2, 1, [['う']]⟩] : List Segment).getD 1 default).length + 1) ∧
          T.map Segment.start =
            (([⟨['あ', 'い'], 0, 2, [['あ', 'い']]⟩, ⟨['う'], 2, 1, [['う']]⟩] : List Segment).map
                Segment.start).set 1
              ((([⟨['あ', 'い'], 0, 2, [['あ', 'い']]⟩,
                  ⟨['う'], 2, 1, [['う']]⟩] : List Segment).getD 1 default).start - 1) ∧
          U.map Segment.start =
            ([⟨['あ', 'い'], 0, 2, [['あ', 'い']]⟩, ⟨['う'], 2, 1, [['う']]⟩] : List Segment).map
              Segment.start ∧
          U.map Segment.length =
            ([⟨['あ', 'い'], 0, 2, [['あ', 'い']]⟩, ⟨['う'], 2, 1, [['う']]⟩] : List Segment).map
              Segment.length := by
  have hpart : Partitions ['あ', 'い', 'う']
      [⟨['あ', 'い'], 0, 2, [['あ', 'い']]⟩, ⟨['う'], 2, 1, [['う']]⟩] :=
    ⟨⟨rfl, rfl, rfl, rfl, rfl⟩, by decide⟩
  exact ⟨hpart, by decide,
    claim5_shrink_extend_round_trip (Converter.mk none) ['あ', 'い', 'う'] _ 0
      hpart (by decide)⟩

/-- C2: with a Lexicon present, at each position reached during segmentation the
next span emitted is the longest substring starting there whose inflection-free
lookup succeeds; when no substring starting there has an entry, exactly the single
character at that position is emitted as an unmatched span whose sole candidate is
that character. -/
theorem claim2_greedy_longest_match (d : Dictionary) (chars : List Char)
    (pos : Nat) (hpos : pos < chars.length) :
    (∀ L, 1 ≤ L → pos + L ≤ chars.length →
      (d.lookup (subAt chars pos L)).isSome = true →
      (∀ l, L < l → pos + l ≤ chars.length →
        (d.lookup (subAt chars pos l)).isSome = false) →
      segmentLoop d chars pos =
        { reading := subAt chars pos L, start := pos, length := L,
          candidates := d.lookup_with_fallback (subAt chars pos L) } ::
          segmentLoop d chars (pos + L)) ∧
    ((∀ l, 1 ≤ l → pos + l ≤ chars.length →
        (d.lookup (subAt chars pos l)).isSome = false) →
      segmentLoop d chars pos =
        { reading := subAt chars pos 1, start := pos, length := 1,
          candidates := [subAt chars pos 1] } :: segmentLoop d chars (pos + 1)) := by
  constructor
  · intro L hL1 hLle hmatch hmax
    rw [segmentLoop_eq, if_pos hpos]
    cases htry : tryEndsDown d chars pos (chars.length - pos) with
    | none =>
      have hnone := tryEndsDown_none htry L hL1 (by omega)
      rw [hnone] at hmatch
      exact absurd hmatch (by simp)
    | some p =>
      obtain ⟨len, s⟩ := p
      obtain ⟨h1, h2, h3, h4, h5⟩ := tryEndsDown_some htry
      have hlen_eq : len = L := by
        rcases Nat.lt_trichotomy len L with hlt | heq | hgt
        · have hfalse := h5 L hlt (by omega)
          rw [hfalse] at hmatch
          exact absurd hmatch (by simp)
        · exact heq
        · have hfalse := hmax len hgt (by omega)
          rw [h3] at h4
          rw [hfalse] at h4
          exact absurd h4 (by simp)
      subst hlen_eq
      subst h3
      rfl
  · intro hnone
    rw [segmentLoop_eq, if_pos hpos]
    cases htry : tryEndsDown d chars pos (chars.length - pos) with
    | none => rfl
    | some p =>
      obtain ⟨len, s⟩ := p
      obtain ⟨h1, h2, h3, h4, _⟩ := tryEndsDown_some htry
      have hfalse := hnone len h1 (by omega)
      rw [h3] at h4
      rw [hfalse] at h4
      exact absurd h4 (by simp)

theorem claim2_witness :
    (0 : Nat) < (['き', 'ょ', 'う', 'は'] : List Char).length ∧
    (Dictionary.lookup ⟨[(['き', 'ょ', 'う'], [['今', '日']])], []⟩
        (subAt ['き', 'ょ', 'う', 'は'] 0 3)).isSome = true ∧
    segmentLoop ⟨[(['き', 'ょ', 'う'], [['今', '日']])], []⟩
        ['き', 'ょ', 'う', 'は'] 0 =
      { reading := subAt ['き', 'ょ', 'う', 'は'] 0 3, start := 0, length := 3,
        candidates := Dictionary.lookup_with_fallback
          ⟨[(['き', 'ょ', 'う'], [['今', '日']])], []⟩
          (subAt ['き', 'ょ', 'う', 'は'] 0 3) } ::
        segmentLoop ⟨[(['き', 'ょ', 'う'], [['今', '日']])], []⟩
          ['き', 'ょ', 'う', 'は'] 3 := by
  refine ⟨by decide, by decide, ?_⟩
  exact (claim2_greedy_longest_match ⟨[(['き', 'ょ', 'う'], [['今', '日']])], []⟩
      ['き', 'ょ', 'う', 'は'] 0 (by decide)).1 3 (by decide) (by decide) (by decide)
    (fun l h1 h2 => by
      have hl4 : (['き', 'ょ', 'う', 'は'] : List Char).length = 4 := rfl
      have h3 : l = 4 := by omega
      subst h3
      decide)

/-- C3: `convert_with_segments` of a non-empty reading yields, as first combined
candidate, the concatenation of each segment's first candidate, with the raw
reading appended as second and last combined candidate exactly when it differs;
the empty reading yields empty candidates and segments; and with the entry
あずき → 小豆 the combined candidates for あずき are [小豆, あずき]. -/
theorem claim3_combined_candidates :
    (∀ c : Converter, c.convert_with_segments [] =
      { combined_candidates := [], segments := [] }) ∧
    (∀ (c : Converter) (chars : List Char), chars ≠ [] →
      (c.convert_with_segments chars).segments = c.segment_with_info chars ∧
      (∀ s ∈ c.segment_with_info chars,
        s.candidates.head? = some (s.candidates.headD s.reading)) ∧
      (c.convert_with_segments chars).combined_candidates =
        (if ((c.segment_with_info chars).map
              fun s => s.candidates.headD s.reading).flatten = chars
         then [((c.segment_with_info chars).map
              fun s => s.candidates.headD s.reading).flatten]
         else [((c.segment_with_info chars).map
              fun s => s.candidates.headD s.reading).flatten, chars])) ∧
    ((Converter.mk (some ⟨[(['あ', 'ず', 'き'], [['小', '豆']])], []⟩)).convert_with_segments
        ['あ', 'ず', 'き']).combined_candidates = [['小', '豆'], ['あ', 'ず', 'き']] := by
  refine ⟨fun c => rfl, fun c chars h => ⟨?_, ?_, ?_⟩, by decide⟩
  · unfold Converter.convert_with_segments
    rw [if_neg h]
  · intro s hs
    exact headD_of_ne_nil ((segment_with_info_spec c chars).2 s hs) s.reading
  · unfold Converter.convert_with_segments
    rw [if_neg h]
    dsimp only
    split
    · rfl
    · rename_i hne
      rw [if_pos (not_not.mp hne)]

theorem claim3_witness :
    (['き'] : List Char) ≠ [] ∧
      ((Converter.mk none).convert_with_segments ['き']).segments =
        (Converter.mk none).segment_with_info ['き'] :=
  ⟨by decide,
    (claim3_combined_candidates.2.1 (Converter.mk none) ['き'] (by decide)).1⟩

theorem claim7_counterexample :
    ((Converter.mk (some ⟨[], []⟩)).convert_with_segments ['あ', 'い']).segments =
        [⟨['あ'], 0, 1, [['あ']]⟩, ⟨['い'], 1, 1, [['い']]⟩] ∧
      ((Converter.mk (some ⟨[], []⟩)).convert_with_segments
          ['あ', 'い']).segments.length ≠ 1 :=
  ⟨rfl, by decide⟩

/-- C7 (amended): with the Lexicon absent, `convert_with_segments` of a non-empty
reading yields exactly one segment spanning the whole reading with the reading as
sole candidate; with a present but empty Lexicon it instead yields one
single-character segment per character, each with that character as sole
candidate, still with the reading as the only combined candidate. -/
theorem claim7_amended :
    (∀ chars : List Char, chars ≠ [] →
      (Converter.mk none).convert_with_segments chars =
        { combined_candidates := [chars],
          segments := [⟨chars, 0, chars.length, [chars]⟩] }) ∧
    (∀ chars : List Char, chars ≠ [] →
      ((Converter.mk (some ⟨[], []⟩)).convert_with_segments chars).segments =
          singletonSegsFrom chars 0 ∧
        ((Converter.mk (some ⟨[], []⟩)).convert_with_segments
            chars).combined_candidates = [chars]) := by
  constructor
  · intro chars h
    unfold Converter.convert_with_segments
    rw [if_neg h]
    dsimp only
    have hseg : (Converter.mk none).segment_with_info chars =
        [⟨chars, 0, chars.length, [chars]⟩] := rfl
    rw [hseg]
    have hcomb : (([⟨chars, 0, chars.length, [chars]⟩] : List Segment).map
        (fun s => s.candidates.headD s.reading)).flatten = chars := by simp
    rw [hcomb, if_neg (not_not_intro rfl)]
  · intro chars h
    have hsegs : (Converter.mk (some ⟨[], []⟩)).segment_with_info chars =
        singletonSegsFrom chars 0 := by
      show segmentLoop ⟨[], []⟩ chars 0 = _
      rw [segmentLoop_empty_dict chars chars.length 0 (by omega), List.drop_zero]
    constructor
    · unfold Converter.convert_with_segments
      rw [if_neg h]
      dsimp only
      exact hsegs
    · unfold Converter.convert_with_segments
      rw [if_neg h]
      dsimp only
      rw [hsegs, singletonSegsFrom_first, if_neg (not_not_intro rfl)]

theorem claim7_witness :
    (['あ', 'い'] : List Char) ≠ [] ∧
      (Converter.mk none).convert_with_segments ['あ', 'い'] =
        { combined_candidates := [['あ', 'い']],
          segments := [⟨['あ', 'い'], 0, 2, [['あ', 'い']]⟩] } ∧
      ((Converter.mk (some ⟨[], []⟩)).convert_with_segments
          ['あ', 'い']).combined_candidates = [['あ', 'い']] :=
  ⟨by decide, claim7_amended.1 ['あ', 'い'] (by decide),
    (claim7_amended.2 ['あ', 'い'] (by decide)).2⟩

/-- C6: `lookup_combined` returns the inflection-free candidates first, then for
readings of length at least two the inflected stems of the reading-without-last
with the last character as marker, each completed with that character and skipping
entries already present, finally the reading itself when non-empty and new — the
definition written from the specification text; and with the inflected key
かk → [書, 欠], looking up かく yields 書く and 欠く with final fallback かく. -/
theorem claim6_lookup_combined_spec :
    (∀ (d : Dictionary) (reading : List Char),
      d.lookup_combined reading = lookupCombinedSpec d reading) ∧
    (['書', 'く'] ∈ (⟨[], [(['か', 'k'], [['書'], ['欠']])]⟩ :
        Dictionary).lookup_combined ['か', 'く'] ∧
      ['欠', 'く'] ∈ (⟨[], [(['か', 'k'], [['書'], ['欠']])]⟩ :
        Dictionary).lookup_combined ['か', 'く'] ∧
      ((⟨[], [(['か', 'k'], [['書'], ['欠']])]⟩ :
        Dictionary).lookup_combined ['か', 'く']).getLast? = some ['か', 'く']) := by
  refine ⟨?_, by decide⟩
  intro d reading
  unfold Dictionary.lookup_combined lookupCombinedSpec
  dsimp only
  have key : ∀ A B : List (List Char), A = B →
      (if reading ≠ [] ∧ reading ∉ A then A ++ [reading] else A) =
      (if reading ≠ [] ∧ reading ∉ B then B ++ [reading] else B) := by
    intro A B hAB
    rw [hAB]
  apply key
  have hbase : (match d.lookup reading with
      | some candidates => candidates
      | none => []) = (d.lookup reading).getD [] := by
    cases d.lookup reading <;> rfl
  rw [hbase]
  by_cases hlen : 2 ≤ reading.length
  · rw [if_pos hlen, if_pos hlen]
    cases ho : d.lookup_okuri_ari reading.dropLast (reading.getLastD ' ') with
    | none => rfl
    | some stems => rw [List.foldl_map]
  · rw [if_neg hlen, if_neg hlen]
    rfl

/-- C9: when the neural source succeeds with candidates Z, the handler returns
exactly Z followed by each dictionary combined candidate not already in Z, in
dictionary order; the returned segments always come from the dictionary converter
regardless of the neural outcome. -/
theorem claim9_neural_merge (c : Converter) (reading : List Char)
    (Z : List (List Char)) :
    (handleConvert c (some Z) reading).candidates =
      Z ++ (c.convert_with_segments reading).combined_candidates.filter
        (fun x => decide (x ∉ Z)) ∧
    ∀ zc : Option (List (List Char)),
      (handleConvert c zc reading).segments =
        (c.convert_with_segments reading).segments := by
  constructor
  · show mergeCandidates Z (c.convert_with_segments reading).combined_candidates = _
    unfold mergeCandidates
    exact foldl_pushIfAbsent _ Z (convert_nodup c reading)
  · intro zc
    cases zc <;> rfl

theorem claim10_counterexample :
    ∃ segs, (Converter.mk none).adjust_segment ['あ'] [⟨['あ'], 0, 1, []⟩] 0
        AdjustDirection.Shrink = some segs ∧ ∃ s ∈ segs, s.candidates = [] :=
  ⟨[⟨['あ'], 0, 1, []⟩], rfl, ⟨['あ'], 0, 1, []⟩, by decide, rfl⟩

/-- C10 (amended): every segment built by `segment_with_info`,
`convert_with_segments`, or by `adjust_segment` whenever the adjustment proceeds
(the rebuild path) has a non-empty candidate list, and `lookup_with_fallback`
never returns an empty list; the no-op path of `adjust_segment` returns the
caller's segments verbatim, which may carry empty candidate lists. -/
theorem claim10_amended (c : Converter) (chars : List Char) :
    (∀ s ∈ c.segment_with_info chars, s.candidates ≠ []) ∧
    (∀ s ∈ (c.convert_with_segments chars).segments, s.candidates ≠ []) ∧
    (∀ (d : Dictionary) (r : List Char), d.lookup_with_fallback r ≠ []) ∧
    (∀ (S : List Segment) (i : Nat) (dir : AdjustDirection) (T : List Segment),
      Converter.can_adjust S i dir = true →
      c.adjust_segment chars S i dir = some T →
      ∀ s ∈ T, s.candidates ≠ []) := by
  refine ⟨(segment_with_info_spec c chars).2, ?_,
    fun d r => lookup_with_fallback_ne_nil d r, ?_⟩
  · intro s hs
    unfold Converter.convert_with_segments at hs
    by_cases h : chars = []
    · rw [if_pos h] at hs
      simp at hs
    · rw [if_neg h] at hs
      dsimp only at hs
      exact (segment_with_info_spec c chars).2 s hs
  · intro S i dir T hcan hadj
    obtain ⟨hi1, _, _⟩ := can_adjust_true hcan
    unfold Converter.adjust_segment at hadj
    rw [if_neg (by omega : ¬ S.length ≤ i), if_pos hcan] at hadj
    unfold Converter.rebuild_segments_from_boundaries at hadj
    exact rebuildAux_candidates c.dictionary chars _ 0 T hadj

theorem claim10_witness :
    Converter.can_adjust
        [⟨['あ', 'い'], 0, 2, [['あ', 'い']]⟩, ⟨['う'], 2, 1, [['う']]⟩] 0
        AdjustDirection.Shrink = true ∧
      (Converter.mk none).adjust_segment ['あ', 'い', 'う']
          [⟨['あ', 'い'], 0, 2, [['あ', 'い']]⟩, ⟨['う'], 2, 1, [['う']]⟩] 0
          AdjustDirection.Shrink =
        some [⟨['あ'], 0, 1, [['あ']]⟩, ⟨['い', 'う'], 1, 2, [['い', 'う']]⟩] ∧
      ∀ s ∈ ([⟨['あ'], 0, 1, [['あ']]⟩, ⟨['い', 'う'], 1, 2, [['い', 'う']]⟩] :
          List Segment), s.candidates ≠ [] :=
  ⟨by decide, rfl,
    (claim10_amended (Converter.mk none) ['あ', 'い', 'う']).2.2.2
      [⟨['あ', 'い'], 0, 2, [['あ', 'い']]⟩, ⟨['う'], 2, 1, [['う']]⟩] 0
      AdjustDirection.Shrink
      [⟨['あ'], 0, 1, [['あ']]⟩, ⟨['い', 'う'], 1, 2, [['い', 'う']]⟩]
      (by decide) rfl⟩

end Azuki
